import Mathlib

/-!
# A* Path Visualization — verification of the pathfinding core

Shallow embedding of the pathfinding core of `src/astar.py` (the grid/node
model, neighbor refresh, the A*-style search and path reconstruction).

Embedding conventions:
* A cell (`Node` object) is identified within one grid by its `(row, col)`
  coordinates (`Pos`); `make_grid` creates exactly one object per coordinate
  and all search-state dictionaries are keyed on those objects, so object
  references are modelled as coordinates.
* A node's mutable `color` field lives in a state map `Pos → Rgb`; the role
  predicates (`is_barrier` etc.) compare against the palette constants.
* `g_score`/`f_score` dictionaries map every cell to `float("inf")` initially
  and hold natural numbers afterwards; they are modelled as `Pos → Option Nat`
  with `none` standing for the infinite default (comparison `x < inf` true,
  `inf < y` false, `inf + 1 = inf`).
* The `PriorityQueue` holds `(f_score, insertion_count, node)` triples and
  pops the smallest tuple; all inserted counts are distinct, so the popped
  entry is the unique lexicographic minimum of `(f_score, count)` and the
  node component never takes part in the comparison (`Node.__lt__` is never
  consulted for distinct counts).  The queue is modelled as a plain list with
  a select-minimum pop, which has the same observable behaviour.
* The `draw`/`on_step` callback has no effect on the search state and is
  dropped.
* Python `while` loops become fuel-indexed recursion; running out of fuel
  yields `none` in the result component while still returning the state built
  so far.  Python's `end` identifier is a Lean keyword, hence `endP`.
-/

/-- Grid coordinates `(row, col)` of a cell. -/
abbrev Pos := Nat × Nat

/-- An RGB color triple, the representation of a cell's role in the source. -/
abbrev Rgb := Nat × Nat × Nat

namespace Color

/-- `Color.BACKGROUND` palette constant. -/
def BACKGROUND : Rgb := (10, 10, 20)

/-- `Color.GRID` palette constant. -/
def GRID : Rgb := (30, 40, 60)

/-- `Color.OPEN` palette constant (role `Open`). -/
def OPEN : Rgb := (0, 255, 200)

/-- `Color.CLOSED` palette constant (role `Closed`). -/
def CLOSED : Rgb := (255, 0, 150)

/-- `Color.BARRIER` palette constant (role `Barrier`). -/
def BARRIER : Rgb := (20, 20, 40)

/-- `Color.START` palette constant (role `Start`). -/
def START : Rgb := (200, 0, 255)

/-- `Color.END` palette constant (role `End`). -/
def END : Rgb := (255, 140, 0)

/-- `Color.PATH` palette constant (role `Path`). -/
def PATH : Rgb := (255, 200, 0)

/-- `Color.WHITE` palette constant (role `Empty`, the `__post_init__` default). -/
def WHITE : Rgb := (255, 255, 255)

end Color

/-- `Node.is_barrier` on a color state: the cell's color equals the barrier
palette constant. -/
def is_barrier (colors : Pos → Rgb) (p : Pos) : Bool :=
  colors p == Color.BARRIER

/-- `Node.update_neighbors(grid)`: the recomputed neighbor list of the cell at
`p` in a square grid with `total_rows = N`, checking the four directions in
source order (down, up, right, left) against grid bounds and barrier status.
The column bound also uses `total_rows`, exactly as in the source. -/
def update_neighbors (N : Nat) (isBar : Pos → Bool) (p : Pos) : List Pos :=
  (if p.1 < N - 1 && !isBar (p.1 + 1, p.2) then [(p.1 + 1, p.2)] else []) ++
  (if 0 < p.1 && !isBar (p.1 - 1, p.2) then [(p.1 - 1, p.2)] else []) ++
  (if p.2 < N - 1 && !isBar (p.1, p.2 + 1) then [(p.1, p.2 + 1)] else []) ++
  (if 0 < p.2 && !isBar (p.1, p.2 - 1) then [(p.1, p.2 - 1)] else [])

/-- The neighbor caches produced by `main`'s pre-search loop, which calls
`node.update_neighbors(grid)` for every cell of the grid. -/
def refreshed_caches (N : Nat) (colors : Pos → Rgb) : Pos → List Pos :=
  fun p => update_neighbors N (is_barrier colors) p

/-- `heuristic(p1, p2)`: Manhattan distance `|x1-x2| + |y1-y2|`. -/
def heuristic (p1 p2 : Pos) : Nat :=
  ((p1.1 : Int) - (p2.1 : Int)).natAbs + ((p1.2 : Int) - (p2.2 : Int)).natAbs

/-- Pointwise update of a state map, the effect of `m[k] = v`. -/
def upd {α : Type} (m : Pos → α) (k : Pos) (v : α) : Pos → α :=
  fun q => if q = k then v else m q

/-- `a < b` where `b` ranges over `Nat ∪ {float("inf")}` (`none` = infinity). -/
def ltInf (a : Nat) (b : Option Nat) : Bool :=
  match b with
  | none => true
  | some v => a < v

/-- The mutable state of one `algorithm(...)` call: the grid's color map plus
the ephemeral search state (`open_set` entries `(f_score, count, node)`,
`came_from`, `g_score`, `f_score`, `open_set_hash`, the insertion counter and
the `path_length` local variable). -/
structure St where
  colors : Pos → Rgb
  open_set : List (Nat × Nat × Pos)
  came_from : Pos → Option Pos
  g_score : Pos → Option Nat
  f_score : Pos → Option Nat
  open_set_hash : List Pos
  count : Nat
  path_length : Nat

/-- Strict lexicographic order on `(f_score, count)` keys. -/
def keyLt (a b : Nat × Nat) : Bool :=
  a.1 < b.1 || (a.1 == b.1 && a.2 < b.2)

/-- The entry with the smallest `(f_score, count)` key among `e :: l`. -/
def minEnt (e : Nat × Nat × Pos) (l : List (Nat × Nat × Pos)) : Nat × Nat × Pos :=
  l.foldl (fun m x => if keyLt (x.1, x.2.1) (m.1, m.2.1) then x else m) e

/-- `open_set.get()`: pop the entry with the smallest `(f_score, count)` key;
`none` on an empty queue.  Inserted counts are pairwise distinct, so the
minimum is unique and the node component is never compared. -/
def popMin (l : List (Nat × Nat × Pos)) :
    Option ((Nat × Nat × Pos) × List (Nat × Nat × Pos)) :=
  match l with
  | [] => none
  | x :: xs => some (minEnt x xs, (x :: xs).erase (minEnt x xs))

/-- The body of the `for neighbor in current.neighbors` loop for one neighbor:
relax the edge `current → nbr` (`temp_g_score = g_score[current] + 1`), and on
improvement record the predecessor, update the scores and — only when `nbr` is
not already in `open_set_hash` — increment the counter, push
`(f_score[nbr], count, nbr)`, add `nbr` to the hash and `make_open` it. -/
def relaxOne (endP current : Pos) (st : St) (nbr : Pos) : St :=
  match st.g_score current with
  | none => st
  | some gc =>
    let temp := gc + 1
    if ltInf temp (st.g_score nbr) then
      let fv := temp + heuristic nbr endP
      let st1 : St :=
        { st with
          came_from := upd st.came_from nbr (some current)
          g_score := upd st.g_score nbr (some temp)
          f_score := upd st.f_score nbr (some fv) }
      if st1.open_set_hash.contains nbr then st1
      else
        { st1 with
          count := st1.count + 1
          open_set := st1.open_set ++ [(fv, st1.count + 1, nbr)]
          open_set_hash := nbr :: st1.open_set_hash
          colors := upd st1.colors nbr Color.OPEN }
    else st

/-- `reconstruct_path(came_from, current, draw)`: walk backwards through
`came_from`, `make_path`-marking every predecessor visited, starting the count
at 1 for the end cell and adding 1 per predecessor.  Returns the count and the
updated color map; `none` on fuel exhaustion (the source loop has no bound of
its own). -/
def reconstruct_path (came_from : Pos → Option Pos) :
    Nat → (Pos → Rgb) → Pos → Option Nat × (Pos → Rgb)
  | 0, colors, _ => (none, colors)
  | fuel + 1, colors, current =>
    match came_from current with
    | none => (some 1, colors)
    | some p =>
      match reconstruct_path came_from fuel (upd colors p Color.PATH) p with
      | (some n, c2) => (some (n + 1), c2)
      | (none, c2) => (none, c2)

/-- The non-success remainder of one loop iteration after the pop: relax all
cached neighbors of the popped cell in order, then `make_closed` it unless it
is the start. -/
def stepExpand (nb : Pos → List Pos) (startP endP current : Pos) (st1 : St) : St :=
  let st2 := (nb current).foldl (relaxOne endP current) st1
  if current = startP then st2
  else { st2 with colors := upd st2.colors current Color.CLOSED }

/-- The `while not open_set.empty()` loop of `algorithm`.  Each iteration pops
the minimum entry, removes it from the hash, tests for the end cell (success:
reconstruct the path, re-mark end and start, return `(True, path_length)`),
otherwise relaxes all cached neighbors of the popped cell in order and
`make_closed`s it unless it is the start.  An empty queue returns
`(False, path_length)` with the `path_length` local still 0. -/
def loopGo (nb : Pos → List Pos) (startP endP : Pos) :
    Nat → St → Option (Bool × Nat) × St
  | 0, st => (none, st)
  | fuel + 1, st =>
    match popMin st.open_set with
    | none => (some (false, st.path_length), st)
    | some (e, rest) =>
      let current := e.2.2
      let st1 : St :=
        { st with
          open_set := rest
          open_set_hash := st.open_set_hash.erase current }
      if current = endP then
        match reconstruct_path st1.came_from fuel st1.colors endP with
        | (some n, c2) =>
          (some (true, n),
           { st1 with
             colors := upd (upd c2 endP Color.END) startP Color.START
             path_length := n })
        | (none, c2) => (none, { st1 with colors := c2 })
      else
        loopGo nb startP endP fuel (stepExpand nb startP endP current st1)

/-- The state set up by the initialization section of `algorithm`: counter 0,
`open_set = [(0, 0, start)]` (the start entry is pushed with priority 0, not
with `f_score[start]`), empty `came_from`, `g_score[start] = 0`,
`f_score[start] = heuristic(start, end)`, all other scores infinite,
`open_set_hash = {start}`, `path_length = 0`. -/
def initSt (colors0 : Pos → Rgb) (startP endP : Pos) : St :=
  { colors := colors0
    open_set := [(0, 0, startP)]
    came_from := fun _ => none
    g_score := fun p => if p = startP then some 0 else none
    f_score := fun p => if p = startP then some (heuristic startP endP) else none
    open_set_hash := [startP]
    count := 0
    path_length := 0 }

/-- `algorithm(draw, grid, start, end)` with neighbor caches `nb` and initial
color map `colors0`: initialization followed by the main loop.  The first
component is the returned pair (`none` = fuel exhausted), the second the final
grid/search state. -/
def algorithm (nb : Pos → List Pos) (colors0 : Pos → Rgb) (startP endP : Pos)
    (fuel : Nat) : Option (Bool × Nat) × St :=
  loopGo nb startP endP fuel (initSt colors0 startP endP)

/-- A color map describing a grid whose cells are all `WHITE` except a given
barrier list, with the start and end cells holding their terminal roles (the
state `main` builds before a search is triggered). -/
def gridColors (barriers : List Pos) (startP endP : Pos) : Pos → Rgb :=
  fun p =>
    if p = startP then Color.START
    else if p = endP then Color.END
    else if barriers.contains p then Color.BARRIER
    else Color.WHITE

/-! ## The `Node` dataclass: identity, equality, hashing

`Node` is declared `@dataclass(unsafe_hash=True)` with `color` and `neighbors`
given `field(hash=False)` but *not* `compare=False`.  The generated `__eq__`
therefore compares all six fields, while the generated `__hash__` only hashes
`(row, col, width, total_rows)`.  A node's `neighbors` list holds references
to other `Node` objects of the same grid; list comparison short-circuits on
reference identity, and within one grid a reference is determined by the
referenced cell's coordinates, so neighbor references are modelled as
coordinate pairs. -/

/-- The fields of the `Node` dataclass (`x`/`y` are derived drawing data and
carry no identity). -/
structure Node where
  row : Nat
  col : Nat
  width : Nat
  total_rows : Nat
  color : Rgb
  neighbors : List Pos

/-- The dataclass-generated `Node.__eq__`: fieldwise comparison of all fields
with `compare=True` — which is all six, `hash=False` does not remove a field
from `__eq__`. -/
def Node.beq (a b : Node) : Bool :=
  a.row == b.row && a.col == b.col && a.width == b.width &&
  a.total_rows == b.total_rows && a.color == b.color && a.neighbors == b.neighbors

/-- The tuple of fields feeding the dataclass-generated `Node.__hash__`
(`unsafe_hash=True` with `hash=False` on `color` and `neighbors`): two nodes
receive equal hashes iff these tuples agree. -/
def Node.hashKey (a : Node) : Nat × Nat × Nat × Nat :=
  (a.row, a.col, a.width, a.total_rows)

/-! ## Spec-shaped and auxiliary definitions used by the claims -/

/-- Orthogonal adjacency of two grid coordinates (no diagonals). -/
def adjacent (p q : Pos) : Prop :=
  (q.1 = p.1 + 1 ∧ q.2 = p.2) ∨ (q.1 + 1 = p.1 ∧ q.2 = p.2) ∨
  (q.2 = p.2 + 1 ∧ q.1 = p.1) ∨ (q.2 + 1 = p.2 ∧ q.1 = p.1)

/-- Modelled from the spec's wording of `refresh_neighbors` (§4.1): the four
orthogonal candidate cells in the order down, up, right, left, kept when
within grid bounds. -/
def boundedCands (N : Nat) (p : Pos) : List Pos :=
  (if p.1 + 1 < N then [(p.1 + 1, p.2)] else []) ++
  (if 1 ≤ p.1 then [(p.1 - 1, p.2)] else []) ++
  (if p.2 + 1 < N then [(p.1, p.2 + 1)] else []) ++
  (if 1 ≤ p.2 then [(p.1, p.2 - 1)] else [])

/-- Modelled from the spec's wording of `refresh_neighbors` (§4.1): bounded
orthogonal candidates in the fixed down/up/right/left order, with barrier
cells filtered out. -/
def spec_neighbors (N : Nat) (isBar : Pos → Bool) (p : Pos) : List Pos :=
  (boundedCands N p).filter (fun q => !isBar q)

/-- The predecessors visited when walking `came_from` back from `current`
(the cells the `while current in came_from` loop of `reconstruct_path` steps
through), most recent first; `none` on fuel exhaustion. -/
def walkPreds (came_from : Pos → Option Pos) : Nat → Pos → Option (List Pos)
  | 0, _ => none
  | fuel + 1, current =>
    match came_from current with
    | none => some []
    | some p => (walkPreds came_from fuel p).map (p :: ·)

/-- `route` is a list of cells forming an actual route through the cached
neighbor relation: each cell is followed by one of its cached neighbors.
A singleton is a route; the empty list is not. -/
def isRoute (nb : Pos → List Pos) : List Pos → Bool
  | [] => false
  | [_] => true
  | a :: b :: rest => (nb a).contains b && isRoute nb (b :: rest)

/-- Reachability through the cached neighbor relation: the cells a search
expanding cached neighbor lists can ever reach from `s`. -/
inductive Reaches (nb : Pos → List Pos) (s : Pos) : Pos → Prop
  | refl : Reaches nb s s
  | step : ∀ {p q : Pos}, Reaches nb s p → q ∈ nb p → Reaches nb s q

/-- All coordinates of an `N×N` grid, row-major. -/
def cellsList (N : Nat) : List Pos :=
  (List.range N).flatMap fun r => (List.range N).map fun c => (r, c)

/-- The number of grid cells whose `g_score` is finite (not the `inf`
default). -/
def finCount (N : Nat) (g : Pos → Option Nat) : Nat :=
  (cellsList N).countP (fun p => (g p).isSome)

/-- One cell's contribution to the termination measure: its `g_score` capped
at `N*N`, with the infinite default counting as `N*N`. -/
def capG (N : Nat) (g : Pos → Option Nat) (p : Pos) : Nat :=
  match g p with
  | none => N * N
  | some v => min v (N * N)

/-- Sum of the capped `g_score`s over the grid. -/
def sigmaG (N : Nat) (g : Pos → Option Nat) : Nat :=
  ((cellsList N).map (capG N g)).sum

/-- Termination measure of the main loop: every relaxation strictly lowers a
capped `g_score` and every iteration pops one queue entry, so this strictly
decreases across an iteration. -/
def loopMeasure (N : Nat) (st : St) : Nat :=
  (N * N + 1) * sigmaG N st.g_score + st.open_set.length

/-! ## Concrete grids used by the claims -/

/-- Barrier layout of the 10×10 grid on which the search returns a
non-shortest path. -/
def bars10 : List Pos :=
  [(1,0),(2,2),(3,1),(4,3),(5,0),(6,2),(7,4),(7,5),(8,3)]

/-- Color map of that 10×10 grid, start `(0,0)`, end `(9,4)`. -/
def colorsCx : Pos → Rgb := gridColors bars10 (0,0) (9,4)

/-- Refreshed neighbor caches of that grid. -/
def nbCx : Pos → List Pos := refreshed_caches 10 colorsCx

/-- A 16-cell (15-edge) barrier-avoiding route from `(0,0)` to `(9,4)` on the
10×10 grid — strictly shorter than the 18-cell path the search reports. -/
def route16 : List Pos :=
  [(0,0),(0,1),(1,1),(2,1),(2,0),(3,0),(4,0),(4,1),(5,1),(6,1),(7,1),(8,1),
   (9,1),(9,2),(9,3),(9,4)]

/-- Color map of the empty 5×5 grid with start `(0,0)` and end `(4,4)`. -/
def colors5 : Pos → Rgb := gridColors [] (0,0) (4,4)

/-- Refreshed neighbor caches of the empty 5×5 grid. -/
def nb5 : Pos → List Pos := refreshed_caches 5 colors5

/-- Color map of a 3×3 grid whose start `(0,0)` is fully enclosed by the
barriers `(0,1)` and `(1,0)`, end `(2,2)`. -/
def colorsEnc : Pos → Rgb := gridColors [(0,1),(1,0)] (0,0) (2,2)

/-- Refreshed neighbor caches of the enclosed-start grid. -/
def nbEnc : Pos → List Pos := refreshed_caches 3 colorsEnc

/-- A 2×2 grid with a single barrier at `(0,0)` (no start/end roles are needed
to exhibit the neighbor-list asymmetry). -/
def colorsBar00 : Pos → Rgb :=
  fun p => if p = ((0 : Nat), (0 : Nat)) then Color.BARRIER else Color.WHITE

/-! ## Loop invariants (for termination, no-path and frame theorems) -/

/-- Structural invariant of the search loop feeding the termination measure:
every finite `g_score` belongs to a grid cell; every finite `g_score` value is
below the number of cells already holding finite scores (so scores stay below
`N*N`); every queued entry's cell has a finite `g_score`; `came_from` edges
point from a cell to one with a strictly smaller `g_score`; and the
`path_length` local is still 0. -/
structure InvT (N : Nat) (st : St) : Prop where
  gCells : ∀ p v, st.g_score p = some v → p ∈ cellsList N
  gBound : ∀ p v, st.g_score p = some v → v + 1 ≤ finCount N st.g_score
  openG : ∀ e ∈ st.open_set, (st.g_score e.2.2).isSome
  cfG : ∀ p q, st.came_from p = some q →
    ∃ vp vq, st.g_score p = some vp ∧ st.g_score q = some vq ∧ vq < vp
  plZero : st.path_length = 0

/-- Reachability invariant: every queued cell and every cell with a finite
`g_score` is reachable from the start through the cached neighbor lists. -/
structure InvR (nb : Pos → List Pos) (startP : Pos) (st : St) : Prop where
  openReach : ∀ e ∈ st.open_set, Reaches nb startP e.2.2
  gReach : ∀ p v, st.g_score p = some v → Reaches nb startP p

/-- Barrier-frame invariant: the barrier layout read through the color map is
the initial one; cells with finite `g_score` (hence everything the search
marks) are non-barrier in the initial layout; queued cells have finite
`g_score`; `came_from` only involves non-barrier cells. -/
structure InvB (colors0 : Pos → Rgb) (st : St) : Prop where
  barEq : ∀ p, (st.colors p = Color.BARRIER) ↔ (colors0 p = Color.BARRIER)
  gNB : ∀ p v, st.g_score p = some v → colors0 p ≠ Color.BARRIER
  openG : ∀ e ∈ st.open_set, (st.g_score e.2.2).isSome
  cfNB : ∀ p q, st.came_from p = some q →
    colors0 p ≠ Color.BARRIER ∧ colors0 q ≠ Color.BARRIER

/-! ## Helper lemmas -/

theorem mem_ite_singleton {c : Prop} [Decidable c] {x a : Pos} :
    (a ∈ if c then [x] else ([] : List Pos)) ↔ c ∧ a = x := by
  split <;> simp_all

theorem adjacent_symm {p q : Pos} : adjacent p q ↔ adjacent q p := by
  unfold adjacent
  omega

/-- Membership characterization of `update_neighbors` for an in-bounds cell:
exactly the in-bounds, orthogonally adjacent, non-barrier cells. -/
theorem mem_update_neighbors {N : Nat} {isBar : Pos → Bool} {p : Pos}
    (hp1 : p.1 < N) (hp2 : p.2 < N) {q : Pos} :
    q ∈ update_neighbors N isBar p ↔
      (q.1 < N ∧ q.2 < N ∧ adjacent p q ∧ isBar q = false) := by
  rcases p with ⟨r, c⟩
  rcases q with ⟨r', c'⟩
  simp only [update_neighbors, List.mem_append, mem_ite_singleton,
    Bool.and_eq_true, decide_eq_true_eq, Bool.not_eq_true']
  unfold adjacent
  dsimp only
  constructor
  · rintro (((⟨⟨h1, h2⟩, heq⟩ | ⟨⟨h1, h2⟩, heq⟩) | ⟨⟨h1, h2⟩, heq⟩) |
        ⟨⟨h1, h2⟩, heq⟩) <;>
      (rw [Prod.mk.injEq] at heq; obtain ⟨rfl, rfl⟩ := heq) <;>
      exact ⟨by omega, by omega, by omega, h2⟩
  · rintro ⟨hq1, hq2, hadj, hbar⟩
    rcases hadj with ⟨h1, h2⟩ | ⟨h1, h2⟩ | ⟨h1, h2⟩ | ⟨h1, h2⟩
    · refine Or.inl (Or.inl (Or.inl ⟨⟨by omega, ?_⟩, by rw [Prod.mk.injEq]; omega⟩))
      rw [show ((r + 1 : Nat), c) = ((r', c') : Pos) by rw [Prod.mk.injEq]; omega]
      exact hbar
    · refine Or.inl (Or.inl (Or.inr ⟨⟨by omega, ?_⟩, by rw [Prod.mk.injEq]; omega⟩))
      rw [show ((r - 1 : Nat), c) = ((r', c') : Pos) by rw [Prod.mk.injEq]; omega]
      exact hbar
    · refine Or.inl (Or.inr ⟨⟨by omega, ?_⟩, by rw [Prod.mk.injEq]; omega⟩)
      rw [show (r, (c + 1 : Nat)) = ((r', c') : Pos) by rw [Prod.mk.injEq]; omega]
      exact hbar
    · refine Or.inr ⟨⟨by omega, ?_⟩, by rw [Prod.mk.injEq]; omega⟩
      rw [show (r, (c - 1 : Nat)) = ((r', c') : Pos) by rw [Prod.mk.injEq]; omega]
      exact hbar

theorem filter_singleton_seg {P Q : Prop} [Decidable P] [Decidable Q]
    (hPQ : P ↔ Q) (isBar : Pos → Bool) (x : Pos) :
    (if P && !isBar x then [x] else []) =
      List.filter (fun q => !isBar q) (if Q then [x] else []) := by
  by_cases hq : Q
  · have hp : P := hPQ.mpr hq
    by_cases hb : isBar x
    · simp [hq, hp, hb]
    · simp [hq, hp, hb]
  · have hp : ¬ P := fun h => hq (hPQ.mp h)
    simp [hq, hp]

/-- `update_neighbors` computes exactly the spec-shaped list: bounded
candidates in down/up/right/left order with barriers filtered out. -/
theorem update_neighbors_eq_spec {N : Nat} {isBar : Pos → Bool} {p : Pos} :
    update_neighbors N isBar p = spec_neighbors N isBar p := by
  rcases p with ⟨r, c⟩
  unfold update_neighbors spec_neighbors boundedCands
  rw [List.filter_append, List.filter_append, List.filter_append]
  dsimp only
  rw [filter_singleton_seg (show r < N - 1 ↔ r + 1 < N by omega),
    filter_singleton_seg (show 0 < r ↔ 1 ≤ r by omega),
    filter_singleton_seg (show c < N - 1 ↔ c + 1 < N by omega),
    filter_singleton_seg (show 0 < c ↔ 1 ≤ c by omega)]

/-! ## Claim C7 -/

/-- C7: for every in-bounds cell, `refresh_neighbors` recomputes its neighbor
list to contain exactly the cells that are within grid bounds, orthogonally
adjacent (no diagonals) and not barriers, listed in the fixed order down, up,
right, left (the spec-shaped ordered construction). -/
theorem C7_refresh_neighbors_exact {N : Nat} {isBar : Pos → Bool} {p : Pos}
    (hp1 : p.1 < N) (hp2 : p.2 < N) :
    (∀ q : Pos, q ∈ update_neighbors N isBar p ↔
      (q.1 < N ∧ q.2 < N ∧ adjacent p q ∧ isBar q = false)) ∧
    update_neighbors N isBar p = spec_neighbors N isBar p :=
  ⟨fun _ => mem_update_neighbors hp1 hp2, update_neighbors_eq_spec⟩

/-- Witness for C7 at the cell `(1,1)` of the 3×3 enclosed-start grid. -/
theorem C7_refresh_neighbors_exact_witness :
    (∀ q : Pos, q ∈ update_neighbors 3 (is_barrier colorsEnc) ((1,1) : Pos) ↔
      (q.1 < 3 ∧ q.2 < 3 ∧ adjacent ((1,1) : Pos) q ∧
        is_barrier colorsEnc q = false)) ∧
    update_neighbors 3 (is_barrier colorsEnc) ((1,1) : Pos) =
      spec_neighbors 3 (is_barrier colorsEnc) ((1,1) : Pos) :=
  C7_refresh_neighbors_exact (by decide) (by decide)

/-! ## Claim C6 -/

/-- C6 counterexample: with a barrier at `(0,0)` on a 2×2 grid, after a full
neighbor refresh the barrier cell `(0,0)` lists `(0,1)` as a neighbor but not
conversely — `update_neighbors` never checks whether the cell *itself* is a
barrier, so the neighbor relation is not symmetric on all cells. -/
theorem C6_counterexample :
    ((0,1) : Pos) ∈ refreshed_caches 2 colorsBar00 (0,0) ∧
    ¬ (((0,0) : Pos) ∈ refreshed_caches 2 colorsBar00 (0,1)) := by
  decide

/-- C6 amended: the neighbor relation after a refresh is symmetric when
restricted to in-bounds non-barrier cells. -/
theorem C6_symmetry_nonbarrier {N : Nat} {isBar : Pos → Bool} {a b : Pos}
    (ha1 : a.1 < N) (ha2 : a.2 < N) (hb1 : b.1 < N) (hb2 : b.2 < N)
    (hba : isBar a = false) (hbb : isBar b = false) :
    (b ∈ update_neighbors N isBar a ↔ a ∈ update_neighbors N isBar b) := by
  rw [mem_update_neighbors ha1 ha2, mem_update_neighbors hb1 hb2]
  constructor
  · rintro ⟨h1, h2, hadj, _⟩
    exact ⟨ha1, ha2, adjacent_symm.mp hadj, hba⟩
  · rintro ⟨h1, h2, hadj, _⟩
    exact ⟨hb1, hb2, adjacent_symm.mp hadj, hbb⟩

/-- Witness for the amended C6 at the non-barrier cells `(1,0)`, `(1,1)` of
the 2×2 single-barrier grid. -/
theorem C6_symmetry_nonbarrier_witness :
    (((1,1) : Pos) ∈ update_neighbors 2 (is_barrier colorsBar00) ((1,0) : Pos) ↔
      ((1,0) : Pos) ∈ update_neighbors 2 (is_barrier colorsBar00) ((1,1) : Pos)) :=
  C6_symmetry_nonbarrier (by decide) (by decide) (by decide) (by decide)
    (by decide) (by decide)

/-! ## Claim C5 -/

/-- C5 counterexample: two nodes with identical `(row, col)` (and identical
`width`/`total_rows`) but different colors are *not* equal under the
dataclass-generated `__eq__`, because `field(hash=False)` removes `color` and
`neighbors` only from `__hash__`, not from `__eq__`.  The claim "equal iff
`(row, col)` match" is therefore false. -/
theorem C5_counterexample :
    ¬ (∀ a b : Node, Node.beq a b = true ↔ (a.row = b.row ∧ a.col = b.col)) := by
  intro h
  have h2 := (h ⟨0, 0, 16, 50, Color.WHITE, []⟩
      ⟨0, 0, 16, 50, Color.BARRIER, []⟩).mpr ⟨rfl, rfl⟩
  simp [Node.beq, Color.WHITE, Color.BARRIER] at h2

/-- C5 amended: `__eq__` compares all six fields (so equality implies matching
coordinates but not conversely), while `__hash__` hashes only
`(row, col, width, total_rows)`; hence within one grid (fixed `width` and
`total_rows`) hash identity is exactly coordinate identity and is stable
across role (color) and neighbor-list mutation, but equality is not. -/
theorem C5_eq_hash_fields (a b : Node) :
    (Node.beq a b = true ↔
      (a.row = b.row ∧ a.col = b.col ∧ a.width = b.width ∧
       a.total_rows = b.total_rows ∧ a.color = b.color ∧
       a.neighbors = b.neighbors)) ∧
    (a.width = b.width → a.total_rows = b.total_rows →
      (Node.hashKey a = Node.hashKey b ↔ (a.row = b.row ∧ a.col = b.col))) ∧
    (∀ c : Rgb, Node.hashKey { a with color := c } = Node.hashKey a) ∧
    (∀ l : List Pos, Node.hashKey { a with neighbors := l } = Node.hashKey a) := by
  refine ⟨?_, ?_, fun _ => rfl, fun _ => rfl⟩
  · simp [Node.beq]
    tauto
  · intro hw ht
    simp [Node.hashKey, Prod.ext_iff, hw, ht]

/-- Witness for the amended C5 at two concrete same-coordinate nodes that
differ only in color. -/
theorem C5_eq_hash_fields_witness :
    (Node.hashKey ⟨0, 0, 16, 50, Color.WHITE, []⟩ =
        Node.hashKey ⟨0, 0, 16, 50, Color.BARRIER, []⟩ ↔
      ((0 : Nat) = 0 ∧ (0 : Nat) = 0)) :=
  ((C5_eq_hash_fields ⟨0, 0, 16, 50, Color.WHITE, []⟩
    ⟨0, 0, 16, 50, Color.BARRIER, []⟩).2.1) rfl rfl

/-! ## Claim C8 -/

/-- C8 counterexample: on the empty 5×5 grid with start `(0,0)` and end
`(4,4)`, the initial frontier entry is `(0, 0, start)` — priority 0 — and not
`(f_score[start], 0, start)` with `f_score[start] = heuristic(start, end) = 8`
as the claim states (`open_set.put((0, count, start))` pushes priority 0). -/
theorem C8_counterexample :
    ¬ ((initSt colors5 (0,0) (4,4)).open_set =
        [(heuristic (0,0) (4,4), 0, ((0,0) : Pos))]) := by
  decide

/-- C8 amended: the start entry is pushed with priority `(0, 0)` while
`f_score[start]` is initialized to `heuristic(start, end)` (and
`g_score[start]` to 0); since start is the only initial entry, it still pops
first. -/
theorem C8_init_push (colors0 : Pos → Rgb) (startP endP : Pos) :
    (initSt colors0 startP endP).open_set = [(0, 0, startP)] ∧
    (initSt colors0 startP endP).f_score startP = some (heuristic startP endP) ∧
    (initSt colors0 startP endP).g_score startP = some 0 := by
  refine ⟨rfl, ?_, ?_⟩ <;> simp [initSt]

/-! ## Path reconstruction: helper characterization -/

/-- Full characterization of `reconstruct_path` on success: the returned count
is one more than the number of predecessors walked, exactly the walked
predecessors are painted `PATH`, and every other cell keeps its color. -/
theorem reconstruct_spec (cf : Pos → Option Pos) :
    ∀ (fuel : Nat) (colors : Pos → Rgb) (cur : Pos) (n : Nat) (c2 : Pos → Rgb),
      reconstruct_path cf fuel colors cur = (some n, c2) →
      ∃ l : List Pos, walkPreds cf fuel cur = some l ∧ n = l.length + 1 ∧
        (∀ q ∈ l, c2 q = Color.PATH) ∧ (∀ q, q ∉ l → c2 q = colors q) := by
  intro fuel
  induction fuel with
  | zero =>
    intro colors cur n c2 h
    simp [reconstruct_path] at h
  | succ fuel ih =>
    intro colors cur n c2 h
    rw [reconstruct_path] at h
    cases hcf : cf cur with
    | none =>
      rw [hcf] at h
      obtain ⟨hn, hc⟩ := Prod.mk.injEq .. ▸ h
      obtain rfl : (1 : Nat) = n := Option.some.inj hn
      subst hc
      exact ⟨[], by simp [walkPreds, hcf], by simp, by simp, fun q _ => rfl⟩
    | some p =>
      rw [hcf] at h
      dsimp only at h
      cases hrec : reconstruct_path cf fuel (upd colors p Color.PATH) p with
      | mk r1 cc =>
        rw [hrec] at h
        cases r1 with
        | none => simp at h
        | some m =>
          dsimp only at h
          obtain ⟨hn, hc⟩ := Prod.mk.injEq .. ▸ h
          obtain rfl : m + 1 = n := Option.some.inj hn
          subst hc
          obtain ⟨l', hl', hlen, hmark, hkeep⟩ :=
            ih (upd colors p Color.PATH) p m cc hrec
          refine ⟨p :: l', ?_, ?_, ?_, ?_⟩
          · simp [walkPreds, hcf, hl']
          · simp [hlen, List.length_cons]
          · intro q hq
            rcases List.mem_cons.mp hq with rfl | hq'
            · by_cases hql : q ∈ l'
              · exact hmark q hql
              · rw [hkeep q hql, upd, if_pos rfl]
            · exact hmark q hq'
          · intro q hq
            rw [List.mem_cons] at hq
            push_neg at hq
            rw [hkeep q hq.2, upd, if_neg hq.1]

/-! ## Claim C4 -/

/-- The `came_from` map of a successful two-cell search: the end `(0,1)` was
reached directly from the start `(0,0)`. -/
def cameFrom2 : Pos → Option Pos :=
  upd (fun _ => none) (0,1) (some (0,0))

/-- C4 counterexample: walking that map back from the end, `reconstruct_path`
paints the start cell `(0,0)` with role `Path` (the loop body runs `current =
came_from[current]; current.make_path()` and does not stop before the start),
contradicting "start … [is] never given role Path by the reconstruction
step".  Only the enclosing success branch restores it via `make_start`. -/
theorem C4_counterexample :
    (reconstruct_path cameFrom2 10 (gridColors [] (0,0) (0,1)) (0,1)).2 (0,0) =
      Color.PATH ∧
    gridColors [] (0,0) (0,1) (0,0) = Color.START := by
  exact ⟨by decide, by decide⟩

/-- C4 amended: on success the reconstruction step paints exactly the
predecessors visited on the `came_from` walk from the end — a set that
*includes* the walk's terminal cell (the start, in a real search) and excludes
the end cell itself whenever the walk does not revisit it — and leaves every
other cell's role unchanged; the enclosing success branch then re-marks end
and start with their terminal roles. -/
theorem C4_reconstruct_marks (cf : Pos → Option Pos) (fuel : Nat)
    (colors : Pos → Rgb) (endC : Pos) (n : Nat)
    (h : (reconstruct_path cf fuel colors endC).1 = some n) :
    ∃ l : List Pos, walkPreds cf fuel endC = some l ∧
      (∀ q ∈ l, (reconstruct_path cf fuel colors endC).2 q = Color.PATH) ∧
      (∀ q, q ∉ l → (reconstruct_path cf fuel colors endC).2 q = colors q) := by
  have hpair : reconstruct_path cf fuel colors endC =
      (some n, (reconstruct_path cf fuel colors endC).2) := by
    rw [← h]
  obtain ⟨l, hl, _, hmark, hkeep⟩ :=
    reconstruct_spec cf fuel colors endC n
      (reconstruct_path cf fuel colors endC).2 hpair
  exact ⟨l, hl, hmark, hkeep⟩

/-- Witness for the amended C4 on the two-cell `came_from` map. -/
theorem C4_reconstruct_marks_witness :
    ∃ l : List Pos, walkPreds cameFrom2 10 (0,1) = some l ∧
      (∀ q ∈ l,
        (reconstruct_path cameFrom2 10 (gridColors [] (0,0) (0,1)) (0,1)).2 q =
          Color.PATH) ∧
      (∀ q, q ∉ l →
        (reconstruct_path cameFrom2 10 (gridColors [] (0,0) (0,1)) (0,1)).2 q =
          gridColors [] (0,0) (0,1) q) :=
  C4_reconstruct_marks cameFrom2 10 (gridColors [] (0,0) (0,1)) (0,1) 2 (by decide)

/-! ## Claim C3 -/

/-- C3: on success the returned `path_length` is one more than the number of
predecessors walked back from the end — the total number of cells on the
reconstructed route, end and terminal (start) inclusive; in particular on the
empty 5×5 grid with start `(0,0)` and end `(4,4)` the search returns
`(True, 9)` (8 unit edges + 1). -/
theorem C3_path_length_counts_cells :
    (∀ (cf : Pos → Option Pos) (fuel : Nat) (colors : Pos → Rgb)
        (endC : Pos) (n : Nat),
      (reconstruct_path cf fuel colors endC).1 = some n →
      ∃ l : List Pos, walkPreds cf fuel endC = some l ∧ n = l.length + 1) ∧
    (algorithm nb5 colors5 (0,0) (4,4) 100).1 = some (true, 9) := by
  constructor
  · intro cf fuel colors endC n h
    have hpair : reconstruct_path cf fuel colors endC =
        (some n, (reconstruct_path cf fuel colors endC).2) := by
      rw [← h]
    obtain ⟨l, hl, hlen, _, _⟩ :=
      reconstruct_spec cf fuel colors endC n
        (reconstruct_path cf fuel colors endC).2 hpair
    exact ⟨l, hl, hlen⟩
  · decide

/-- Witness for C3's reconstruction clause on the two-cell `came_from` map. -/
theorem C3_path_length_counts_cells_witness :
    ∃ l : List Pos, walkPreds cameFrom2 10 (0,1) = some l ∧ 2 = l.length + 1 :=
  C3_path_length_counts_cells.1 cameFrom2 10 (gridColors [] (0,0) (0,1)) (0,1) 2
    (by decide)

/-! ## Claim C1 -/

set_option maxRecDepth 100000 in
set_option maxHeartbeats 4000000 in
/-- C1: the search is *not* optimal.  On the 10×10 grid `colorsCx` (barriers
`bars10`, start `(0,0)`, end `(9,4)`, caches refreshed) the search succeeds
with `path_length = 18` (17 unit edges), yet `route16` is a barrier-avoiding
16-cell (15-edge) route between the same cells through the same caches — the
code returns more than "the minimum number of unit steps" the spec promises.
The culprit is exactly the suppressed re-enqueue: a cell already in
`open_set_hash` keeps its stale queue priority when its `g_score` improves. -/
theorem C1_returns_nonminimal_path :
    (algorithm nbCx colorsCx (0,0) (9,4) 100).1 = some (true, 18) ∧
    isRoute nbCx route16 = true ∧
    route16.head? = some ((0,0) : Pos) ∧
    route16.getLast? = some ((9,4) : Pos) ∧
    route16.length = 16 := by
  exact ⟨by decide, by decide, by decide, by decide, by decide⟩

/-! ## Queue, counting and sum helpers -/

theorem minEnt_mem : ∀ (l : List (Nat × Nat × Pos)) (e : Nat × Nat × Pos),
    minEnt e l ∈ e :: l := by
  intro l
  induction l with
  | nil => intro e; simp [minEnt]
  | cons x xs ih =>
    intro e
    have hstep : minEnt e (x :: xs) =
        minEnt (if keyLt (x.1, x.2.1) (e.1, e.2.1) then x else e) xs := rfl
    rw [hstep]
    rcases List.mem_cons.mp (ih (if keyLt (x.1, x.2.1) (e.1, e.2.1) then x else e))
      with heq | hmem
    · rw [heq]
      split <;> simp
    · simp [List.mem_cons, hmem]

theorem popMin_mem {l : List (Nat × Nat × Pos)} {e : Nat × Nat × Pos}
    {rest : List (Nat × Nat × Pos)} (h : popMin l = some (e, rest)) : e ∈ l := by
  cases l with
  | nil => simp [popMin] at h
  | cons x xs =>
    simp only [popMin, Option.some.injEq, Prod.mk.injEq] at h
    rw [← h.1]
    exact minEnt_mem xs x

theorem popMin_rest {l : List (Nat × Nat × Pos)} {e : Nat × Nat × Pos}
    {rest : List (Nat × Nat × Pos)} (h : popMin l = some (e, rest)) :
    rest = l.erase e := by
  cases l with
  | nil => simp [popMin] at h
  | cons x xs =>
    simp only [popMin, Option.some.injEq, Prod.mk.injEq] at h
    rw [← h.2, ← h.1]

theorem popMin_rest_length {l : List (Nat × Nat × Pos)} {e : Nat × Nat × Pos}
    {rest : List (Nat × Nat × Pos)} (h : popMin l = some (e, rest)) :
    rest.length + 1 = l.length := by
  rw [popMin_rest h, List.length_erase_of_mem (popMin_mem h)]
  have : 1 ≤ l.length := by
    cases l with
    | nil => simp [popMin] at h
    | cons x xs => simp
  omega

theorem popMin_rest_subset {l : List (Nat × Nat × Pos)} {e : Nat × Nat × Pos}
    {rest : List (Nat × Nat × Pos)} (h : popMin l = some (e, rest)) :
    ∀ x ∈ rest, x ∈ l := by
  intro x hx
  rw [popMin_rest h] at hx
  exact List.mem_of_mem_erase hx

theorem countP_le_of_imp {l : List Pos} {p q : Pos → Bool}
    (h : ∀ x ∈ l, p x = true → q x = true) : l.countP p ≤ l.countP q := by
  induction l with
  | nil => simp
  | cons y ys ih =>
    have hys := ih (fun x hx => h x (List.mem_cons_of_mem y hx))
    rw [List.countP_cons, List.countP_cons]
    by_cases hy : p y = true
    · have hqy := h y (List.mem_cons_self y ys) hy
      simp only [hy, hqy, if_true]
      omega
    · have hy' : p y = false := by simpa using hy
      simp only [hy', Bool.false_eq_true, if_false]
      split <;> omega

theorem countP_lt_of_mem {l : List Pos} {p q : Pos → Bool} {x : Pos}
    (hx : x ∈ l) (hpx : p x = false) (hqx : q x = true)
    (h : ∀ y ∈ l, p y = true → q y = true) : l.countP p < l.countP q := by
  induction l with
  | nil => simp at hx
  | cons y ys ih =>
    rw [List.countP_cons, List.countP_cons]
    rcases List.mem_cons.mp hx with rfl | hx'
    · rw [hpx, hqx]
      have hle := countP_le_of_imp (l := ys) (p := p) (q := q)
        (fun z hz => h z (List.mem_cons_of_mem x hz))
      simp only [Bool.false_eq_true, if_false, if_true]
      omega
    · have hys := ih hx' (fun z hz => h z (List.mem_cons_of_mem y hz))
      by_cases hy : p y = true
      · have hqy := h y (List.mem_cons_self y ys) hy
        simp only [hy, hqy, if_true]
        omega
      · have hy' : p y = false := by simpa using hy
        simp only [hy', Bool.false_eq_true, if_false]
        split <;> omega

theorem countP_lt_length_of_mem {l : List Pos} {p : Pos → Bool} {x : Pos}
    (hx : x ∈ l) (hpx : p x = false) : l.countP p < l.length := by
  have := countP_lt_of_mem (q := fun _ => true) hx hpx rfl (fun _ _ _ => rfl)
  simpa [List.countP_true] using this

theorem countP_congr_of_eq {l : List Pos} {p q : Pos → Bool}
    (h : ∀ x ∈ l, p x = q x) : l.countP p = l.countP q := by
  have h1 := countP_le_of_imp (l := l) (p := p) (q := q)
    (fun x hx hp => (h x hx) ▸ hp)
  have h2 := countP_le_of_imp (l := l) (p := q) (q := p)
    (fun x hx hq => (h x hx).symm ▸ hq)
  omega

theorem sum_map_le_sum_map {l : List Pos} {f g : Pos → Nat}
    (h : ∀ x ∈ l, f x ≤ g x) : (l.map f).sum ≤ (l.map g).sum := by
  induction l with
  | nil => simp
  | cons y ys ih =>
    simp only [List.map_cons, List.sum_cons]
    have h1 := ih (fun x hx => h x (List.mem_cons_of_mem y hx))
    have h2 := h y (List.mem_cons_self y ys)
    omega

theorem sum_map_lt_sum_map {l : List Pos} {f g : Pos → Nat} {x : Pos}
    (hx : x ∈ l) (hlt : f x < g x) (h : ∀ y ∈ l, f y ≤ g y) :
    (l.map f).sum < (l.map g).sum := by
  induction l with
  | nil => simp at hx
  | cons y ys ih =>
    simp only [List.map_cons, List.sum_cons]
    rcases List.mem_cons.mp hx with rfl | hx'
    · have h1 := sum_map_le_sum_map (l := ys) (f := f) (g := g)
        (fun z hz => h z (List.mem_cons_of_mem x hz))
      omega
    · have h1 := ih hx' (fun z hz => h z (List.mem_cons_of_mem y hz))
      have h2 := h y (List.mem_cons_self y ys)
      omega

theorem mem_cellsList {N : Nat} {p : Pos} :
    p ∈ cellsList N ↔ p.1 < N ∧ p.2 < N := by
  rcases p with ⟨r, c⟩
  simp only [cellsList, List.mem_flatMap, List.mem_map, List.mem_range]
  constructor
  · rintro ⟨a, ha, b, hb, heq⟩
    obtain ⟨h1, h2⟩ := Prod.mk.injEq .. ▸ heq
    exact ⟨h1 ▸ ha, h2 ▸ hb⟩
  · rintro ⟨h1, h2⟩
    exact ⟨r, h1, c, h2, rfl⟩

theorem length_cellsList (N : Nat) : (cellsList N).length = N * N := by
  simp [cellsList, List.length_flatMap, Function.comp_def, List.map_const',
    List.sum_replicate, smul_eq_mul]

/-! ## Relaxation-step lemmas -/

theorem relaxOne_cases {endP current nbr : Pos} {st : St} {motive : St → Prop}
    (hid : motive st)
    (hrelax : ∀ gc, st.g_score current = some gc →
      ltInf (gc + 1) (st.g_score nbr) = true →
      (st.open_set_hash.contains nbr = true →
        motive { st with
          came_from := upd st.came_from nbr (some current)
          g_score := upd st.g_score nbr (some (gc + 1))
          f_score := upd st.f_score nbr (some (gc + 1 + heuristic nbr endP)) }) ∧
      (st.open_set_hash.contains nbr = false →
        motive { st with
          came_from := upd st.came_from nbr (some current)
          g_score := upd st.g_score nbr (some (gc + 1))
          f_score := upd st.f_score nbr (some (gc + 1 + heuristic nbr endP))
          count := st.count + 1
          open_set := st.open_set ++
            [(gc + 1 + heuristic nbr endP, st.count + 1, nbr)]
          open_set_hash := nbr :: st.open_set_hash
          colors := upd st.colors nbr Color.OPEN })) :
    motive (relaxOne endP current st nbr) := by
  unfold relaxOne
  cases hg : st.g_score current with
  | none => exact hid
  | some gc =>
    dsimp only
    by_cases hlt : ltInf (gc + 1) (st.g_score nbr) = true
    · rw [if_pos hlt]
      by_cases hc : st.open_set_hash.contains nbr = true
      · rw [if_pos hc]
        exact (hrelax gc hg hlt).1 hc
      · rw [if_neg hc]
        exact (hrelax gc hg hlt).2 (by simpa using hc)
    · rw [if_neg hlt]
      exact hid

theorem isSome_upd_some {g : Pos → Option Nat} {q x : Pos} {t : Nat}
    (h : (g x).isSome = true) : ((upd g q (some t)) x).isSome = true := by
  unfold upd
  split <;> simp_all

theorem finCount_le_upd {N : Nat} (g : Pos → Option Nat) (q : Pos) (t : Nat) :
    finCount N g ≤ finCount N (upd g q (some t)) := by
  exact countP_le_of_imp (fun x _ hx => isSome_upd_some hx)

theorem finCount_lt_upd_of_none {N : Nat} {g : Pos → Option Nat} {q : Pos}
    (hq : q ∈ cellsList N) (hnone : g q = none) (t : Nat) :
    finCount N g < finCount N (upd g q (some t)) := by
  refine countP_lt_of_mem hq ?_ ?_ (fun x _ hx => isSome_upd_some hx)
  · simp [hnone]
  · simp [upd]

theorem finCount_upd_of_some {N : Nat} {g : Pos → Option Nat} {q : Pos}
    {v : Nat} (hv : g q = some v) (t : Nat) :
    finCount N (upd g q (some t)) = finCount N g := by
  refine countP_congr_of_eq (fun x _ => ?_)
  unfold upd
  split
  · next heq => rw [heq, hv]; rfl
  · rfl

theorem capG_upd {N : Nat} (g : Pos → Option Nat) (q : Pos) (t : Nat) (x : Pos) :
    capG N (upd g q (some t)) x = if x = q then min t (N * N) else capG N g x := by
  unfold capG upd
  by_cases hxq : x = q
  · rw [if_pos hxq, if_pos hxq]
  · rw [if_neg hxq, if_neg hxq]

theorem sigmaG_lt_upd {N : Nat} {g : Pos → Option Nat} {q : Pos} {t : Nat}
    (hq : q ∈ cellsList N) (ht : t < N * N)
    (hcase : g q = none ∨ ∃ v, g q = some v ∧ t < v) :
    sigmaG N (upd g q (some t)) < sigmaG N g := by
  unfold sigmaG
  refine sum_map_lt_sum_map hq ?_ ?_
  · rw [capG_upd, if_pos rfl]
    rcases hcase with hnone | ⟨v, hv, htv⟩
    · simp only [capG, hnone]
      rw [Nat.min_eq_left (Nat.le_of_lt ht)]
      exact ht
    · simp only [capG, hv]
      rw [Nat.min_eq_left (Nat.le_of_lt ht)]
      exact Nat.lt_min.mpr ⟨htv, ht⟩
  · intro y _
    rw [capG_upd]
    by_cases hyq : y = q
    · rw [if_pos hyq]
      subst hyq
      rcases hcase with hnone | ⟨v, hv, htv⟩
      · simp only [capG, hnone]
        exact Nat.min_le_right _ _
      · simp only [capG, hv]
        exact min_le_min (Nat.le_of_lt htv) (le_refl _)
    · rw [if_neg hyq]

theorem upd_eq {α : Type} {m : Pos → α} {k x : Pos} {v : α} (h : x = k) :
    upd m k v x = v := by
  rw [upd, if_pos h]

theorem upd_ne {α : Type} {m : Pos → α} {k x : Pos} {v : α} (h : ¬ x = k) :
    upd m k v x = m x := by
  rw [upd, if_neg h]

theorem relaxOne_InvT_measure {N : Nat} {endP current nbr : Pos} {st : St}
    (hInv : InvT N st) (hnbr : nbr ∈ cellsList N) :
    InvT N (relaxOne endP current st nbr) ∧
      loopMeasure N (relaxOne endP current st nbr) ≤ loopMeasure N st := by
  refine relaxOne_cases
    (motive := fun s => InvT N s ∧ loopMeasure N s ≤ loopMeasure N st)
    ⟨hInv, le_refl _⟩ ?_
  intro gc hg hlt
  have hne : nbr ≠ current := by
    intro h
    rw [h, hg] at hlt
    simp [ltInf] at hlt
  have hcase : st.g_score nbr = none ∨
      ∃ v, st.g_score nbr = some v ∧ gc + 1 < v := by
    cases hgn : st.g_score nbr with
    | none => exact Or.inl rfl
    | some v =>
      rw [hgn] at hlt
      simp [ltInf] at hlt
      exact Or.inr ⟨v, rfl, hlt⟩
  have hgb := hInv.gBound current gc hg
  have hfin_le : finCount N st.g_score ≤ N * N := by
    have h1 : finCount N st.g_score ≤ (cellsList N).length :=
      List.countP_le_length _
    rw [length_cellsList] at h1
    exact h1
  have ht : gc + 1 < N * N := by
    rcases hcase with hgn | ⟨v, hgn, hv⟩
    · have h1 := countP_lt_length_of_mem (p := fun p => (st.g_score p).isSome)
        hnbr (by simp [hgn])
      rw [length_cellsList] at h1
      unfold finCount at hgb
      omega
    · have h2 := hInv.gBound nbr v hgn
      omega
  have hσ : sigmaG N (upd st.g_score nbr (some (gc + 1))) < sigmaG N st.g_score :=
    sigmaG_lt_upd hnbr ht hcase
  have hfc_mono : finCount N st.g_score ≤
      finCount N (upd st.g_score nbr (some (gc + 1))) :=
    finCount_le_upd st.g_score nbr (gc + 1)
  have hcells' : ∀ p v, upd st.g_score nbr (some (gc + 1)) p = some v →
      p ∈ cellsList N := by
    intro p v hp
    by_cases hpq : p = nbr
    · subst hpq; exact hnbr
    · rw [upd_ne hpq] at hp
      exact hInv.gCells p v hp
  have hfc_bound : ∀ p v, upd st.g_score nbr (some (gc + 1)) p = some v →
      v + 1 ≤ finCount N (upd st.g_score nbr (some (gc + 1))) := by
    intro p v hp
    by_cases hpq : p = nbr
    · rw [upd_eq hpq] at hp
      obtain rfl : gc + 1 = v := Option.some.inj hp
      rcases hcase with hgn | ⟨v0, hgn, hv0⟩
      · have h3 := finCount_lt_upd_of_none (N := N) hnbr hgn (gc + 1)
        omega
      · have h2 := hInv.gBound nbr v0 hgn
        rw [finCount_upd_of_some hgn]
        omega
    · rw [upd_ne hpq] at hp
      have h4 := hInv.gBound p v hp
      omega
  have hcf' : ∀ p q, upd st.came_from nbr (some current) p = some q →
      ∃ vp vq, upd st.g_score nbr (some (gc + 1)) p = some vp ∧
        upd st.g_score nbr (some (gc + 1)) q = some vq ∧ vq < vp := by
    intro p q hp
    by_cases hpq : p = nbr
    · rw [upd_eq hpq] at hp
      obtain rfl : current = q := Option.some.inj hp
      refine ⟨gc + 1, gc, by rw [upd_eq hpq], ?_, by omega⟩
      rw [upd_ne (show ¬ current = nbr from fun h => hne h.symm)]
      exact hg
    · rw [upd_ne hpq] at hp
      obtain ⟨vp, vq, hvp, hvq, hlt'⟩ := hInv.cfG p q hp
      by_cases hq : q = nbr
      · subst hq
        rcases hcase with hgn | ⟨v0, hgn, hv0⟩
        · rw [hgn] at hvq
          exact absurd hvq (by simp)
        · rw [hgn] at hvq
          obtain rfl : v0 = vq := Option.some.inj hvq
          exact ⟨vp, gc + 1, by rw [upd_ne hpq]; exact hvp,
            by rw [upd_eq rfl], by omega⟩
      · exact ⟨vp, vq, by rw [upd_ne hpq]; exact hvp,
          by rw [upd_ne hq]; exact hvq, hlt'⟩
  have hmul : (N * N + 1) * sigmaG N (upd st.g_score nbr (some (gc + 1))) +
      (N * N + 1) ≤ (N * N + 1) * sigmaG N st.g_score := by
    have h1 : sigmaG N (upd st.g_score nbr (some (gc + 1))) + 1 ≤
        sigmaG N st.g_score := hσ
    calc (N * N + 1) * sigmaG N (upd st.g_score nbr (some (gc + 1))) + (N * N + 1)
        = (N * N + 1) * (sigmaG N (upd st.g_score nbr (some (gc + 1))) + 1) := by
          ring
      _ ≤ (N * N + 1) * sigmaG N st.g_score := Nat.mul_le_mul_left _ h1
  constructor
  · intro _
    refine ⟨⟨hcells', hfc_bound, ?_, hcf', hInv.plZero⟩, ?_⟩
    · intro e he
      exact isSome_upd_some (hInv.openG e he)
    · unfold loopMeasure
      dsimp only
      omega
  · intro _
    refine ⟨⟨hcells', hfc_bound, ?_, hcf', hInv.plZero⟩, ?_⟩
    · intro e he
      rcases List.mem_append.mp he with h1 | h2
      · exact isSome_upd_some (hInv.openG e h1)
      · rw [List.mem_singleton.mp h2]
        show (upd st.g_score nbr (some (gc + 1)) nbr).isSome = true
        rw [upd_eq rfl]
        rfl
    · unfold loopMeasure
      dsimp only
      rw [List.length_append]
      simp only [List.length_cons, List.length_nil]
      omega

theorem relaxOne_InvR {nb : Pos → List Pos} {startP endP current nbr : Pos}
    {st : St} (hInv : InvR nb startP st)
    (hcur : Reaches nb startP current) (hnbr : nbr ∈ nb current) :
    InvR nb startP (relaxOne endP current st nbr) := by
  refine relaxOne_cases (motive := fun s => InvR nb startP s) hInv ?_
  intro gc hg hlt
  have hnr : Reaches nb startP nbr := Reaches.step hcur hnbr
  have hgR : ∀ p v, upd st.g_score nbr (some (gc + 1)) p = some v →
      Reaches nb startP p := by
    intro p v hp
    by_cases hpq : p = nbr
    · subst hpq; exact hnr
    · rw [upd_ne hpq] at hp
      exact hInv.gReach p v hp
  constructor
  · intro _
    exact ⟨hInv.openReach, hgR⟩
  · intro _
    refine ⟨?_, hgR⟩
    intro e he
    rcases List.mem_append.mp he with h1 | h2
    · exact hInv.openReach e h1
    · rw [List.mem_singleton.mp h2]
      exact hnr

theorem relaxOne_InvB {colors0 : Pos → Rgb} {endP current nbr : Pos} {st : St}
    (hInv : InvB colors0 st) (hnbr : colors0 nbr ≠ Color.BARRIER) :
    InvB colors0 (relaxOne endP current st nbr) := by
  refine relaxOne_cases (motive := fun s => InvB colors0 s) hInv ?_
  intro gc hg hlt
  have hgNB : ∀ p v, upd st.g_score nbr (some (gc + 1)) p = some v →
      colors0 p ≠ Color.BARRIER := by
    intro p v hp
    by_cases hpq : p = nbr
    · subst hpq; exact hnbr
    · rw [upd_ne hpq] at hp
      exact hInv.gNB p v hp
  have hcfNB : ∀ p q, upd st.came_from nbr (some current) p = some q →
      colors0 p ≠ Color.BARRIER ∧ colors0 q ≠ Color.BARRIER := by
    intro p q hp
    by_cases hpq : p = nbr
    · rw [upd_eq hpq] at hp
      obtain rfl : current = q := Option.some.inj hp
      exact ⟨hpq ▸ hnbr, hInv.gNB current gc hg⟩
    · rw [upd_ne hpq] at hp
      exact hInv.cfNB p q hp
  constructor
  · intro _
    exact ⟨hInv.barEq, hgNB, fun e he => isSome_upd_some (hInv.openG e he), hcfNB⟩
  · intro _
    refine ⟨?_, hgNB, ?_, hcfNB⟩
    · intro p
      show upd st.colors nbr Color.OPEN p = Color.BARRIER ↔ colors0 p = Color.BARRIER
      by_cases hpq : p = nbr
      · rw [upd_eq hpq]
        constructor
        · intro h
          exact absurd h (by decide)
        · intro h
          exact absurd h (hpq ▸ hnbr)
      · rw [upd_ne hpq]
        exact hInv.barEq p
    · intro e he
      rcases List.mem_append.mp he with h1 | h2
      · exact isSome_upd_some (hInv.openG e h1)
      · rw [List.mem_singleton.mp h2]
        show (upd st.g_score nbr (some (gc + 1)) nbr).isSome = true
        rw [upd_eq rfl]
        rfl

theorem foldl_relaxOne_InvT_measure {N : Nat} {endP current : Pos} :
    ∀ (l : List Pos) (st : St), InvT N st → (∀ q ∈ l, q ∈ cellsList N) →
      InvT N (l.foldl (relaxOne endP current) st) ∧
        loopMeasure N (l.foldl (relaxOne endP current) st) ≤ loopMeasure N st := by
  intro l
  induction l with
  | nil => exact fun st h _ => ⟨h, le_refl _⟩
  | cons q qs ih =>
    intro st h hl
    obtain ⟨h1, h2⟩ := relaxOne_InvT_measure h (hl q (List.mem_cons_self q qs))
    obtain ⟨h3, h4⟩ := ih _ h1 (fun z hz => hl z (List.mem_cons_of_mem q hz))
    exact ⟨h3, le_trans h4 h2⟩

theorem foldl_relaxOne_InvR {nb : Pos → List Pos} {startP endP current : Pos}
    (hcur : Reaches nb startP current) :
    ∀ (l : List Pos) (st : St), InvR nb startP st → (∀ q ∈ l, q ∈ nb current) →
      InvR nb startP (l.foldl (relaxOne endP current) st) := by
  intro l
  induction l with
  | nil => exact fun st h _ => h
  | cons q qs ih =>
    intro st h hl
    exact ih _ (relaxOne_InvR h hcur (hl q (List.mem_cons_self q qs)))
      (fun z hz => hl z (List.mem_cons_of_mem q hz))

theorem foldl_relaxOne_InvB {colors0 : Pos → Rgb} {endP current : Pos} :
    ∀ (l : List Pos) (st : St), InvB colors0 st →
      (∀ q ∈ l, colors0 q ≠ Color.BARRIER) →
      InvB colors0 (l.foldl (relaxOne endP current) st) := by
  intro l
  induction l with
  | nil => exact fun st h _ => h
  | cons q qs ih =>
    intro st h hl
    exact ih _ (relaxOne_InvB h (hl q (List.mem_cons_self q qs)))
      (fun z hz => hl z (List.mem_cons_of_mem q hz))

/-! ## Loop unfolding lemmas -/

theorem loopGo_empty {nb : Pos → List Pos} {startP endP : Pos} {fuel : Nat}
    {st : St} (hpop : popMin st.open_set = none) :
    loopGo nb startP endP (fuel + 1) st = (some (false, st.path_length), st) := by
  rw [loopGo, hpop]

theorem loopGo_pop_ne {nb : Pos → List Pos} {startP endP : Pos} {fuel : Nat}
    {st : St} {e : Nat × Nat × Pos} {rest : List (Nat × Nat × Pos)}
    (hpop : popMin st.open_set = some (e, rest)) (hne : ¬ (e.2.2 = endP)) :
    loopGo nb startP endP (fuel + 1) st =
      loopGo nb startP endP fuel
        (stepExpand nb startP endP e.2.2
          { st with
            open_set := rest
            open_set_hash := st.open_set_hash.erase e.2.2 }) := by
  rw [loopGo, hpop]
  dsimp only
  rw [if_neg hne]

theorem loopGo_pop_end_some {nb : Pos → List Pos} {startP endP : Pos}
    {fuel : Nat} {st : St} {e : Nat × Nat × Pos} {rest : List (Nat × Nat × Pos)}
    {n : Nat} {c2 : Pos → Rgb}
    (hpop : popMin st.open_set = some (e, rest)) (he : e.2.2 = endP)
    (hrp : reconstruct_path st.came_from fuel st.colors endP = (some n, c2)) :
    loopGo nb startP endP (fuel + 1) st =
      (some (true, n),
       { st with
         open_set := rest
         open_set_hash := st.open_set_hash.erase e.2.2
         colors := upd (upd c2 endP Color.END) startP Color.START
         path_length := n }) := by
  rw [loopGo, hpop]
  dsimp only
  rw [if_pos he, hrp]

theorem loopGo_pop_end_none {nb : Pos → List Pos} {startP endP : Pos}
    {fuel : Nat} {st : St} {e : Nat × Nat × Pos} {rest : List (Nat × Nat × Pos)}
    {c2 : Pos → Rgb}
    (hpop : popMin st.open_set = some (e, rest)) (he : e.2.2 = endP)
    (hrp : reconstruct_path st.came_from fuel st.colors endP = (none, c2)) :
    loopGo nb startP endP (fuel + 1) st =
      (none,
       { st with
         open_set := rest
         open_set_hash := st.open_set_hash.erase e.2.2
         colors := c2 }) := by
  rw [loopGo, hpop]
  dsimp only
  rw [if_pos he, hrp]

theorem countP_pos_of_mem {l : List Pos} {q : Pos → Bool} {x : Pos}
    (hx : x ∈ l) (hqx : q x = true) : 0 < l.countP q := by
  have h := countP_lt_of_mem (p := fun _ => false) hx rfl hqx
    (fun y _ hy => absurd hy (by simp))
  have h0 : l.countP (fun _ => false) = 0 := by
    induction l with
    | nil => rfl
    | cons a as ih =>
      rw [List.countP_cons]
      simp [ih]
  omega

/-! ## Pop- and expand-step invariant transfer -/

theorem popped_InvT {N : Nat} {st : St} {e : Nat × Nat × Pos}
    {rest : List (Nat × Nat × Pos)}
    (hpop : popMin st.open_set = some (e, rest)) (hT : InvT N st) :
    InvT N { st with
      open_set := rest
      open_set_hash := st.open_set_hash.erase e.2.2 } :=
  ⟨hT.gCells, hT.gBound,
   fun e' he' => hT.openG e' (popMin_rest_subset hpop e' he'),
   hT.cfG, hT.plZero⟩

theorem popped_InvR {nb : Pos → List Pos} {startP : Pos} {st : St}
    {e : Nat × Nat × Pos} {rest : List (Nat × Nat × Pos)}
    (hpop : popMin st.open_set = some (e, rest)) (hR : InvR nb startP st) :
    InvR nb startP { st with
      open_set := rest
      open_set_hash := st.open_set_hash.erase e.2.2 } :=
  ⟨fun e' he' => hR.openReach e' (popMin_rest_subset hpop e' he'), hR.gReach⟩

theorem popped_InvB {colors0 : Pos → Rgb} {st : St} {e : Nat × Nat × Pos}
    {rest : List (Nat × Nat × Pos)}
    (hpop : popMin st.open_set = some (e, rest)) (hB : InvB colors0 st) :
    InvB colors0 { st with
      open_set := rest
      open_set_hash := st.open_set_hash.erase e.2.2 } :=
  ⟨hB.barEq, hB.gNB,
   fun e' he' => hB.openG e' (popMin_rest_subset hpop e' he'), hB.cfNB⟩

theorem popped_measure {N : Nat} {st : St} {e : Nat × Nat × Pos}
    {rest : List (Nat × Nat × Pos)}
    (hpop : popMin st.open_set = some (e, rest)) :
    loopMeasure N { st with
      open_set := rest
      open_set_hash := st.open_set_hash.erase e.2.2 } + 1 = loopMeasure N st := by
  unfold loopMeasure
  dsimp only
  have h := popMin_rest_length hpop
  omega

theorem popped_current_cells {N : Nat} {st : St} {e : Nat × Nat × Pos}
    {rest : List (Nat × Nat × Pos)}
    (hpop : popMin st.open_set = some (e, rest)) (hT : InvT N st) :
    e.2.2 ∈ cellsList N := by
  have hs := hT.openG e (popMin_mem hpop)
  obtain ⟨v, hv⟩ := Option.isSome_iff_exists.mp hs
  exact hT.gCells _ v hv

theorem stepExpand_InvT_measure {N : Nat} {nb : Pos → List Pos}
    {startP endP current : Pos} {st1 : St}
    (hT1 : InvT N st1) (hsub : ∀ q ∈ nb current, q ∈ cellsList N) :
    InvT N (stepExpand nb startP endP current st1) ∧
      loopMeasure N (stepExpand nb startP endP current st1) ≤
        loopMeasure N st1 := by
  unfold stepExpand
  dsimp only
  obtain ⟨hT2, hm2⟩ := foldl_relaxOne_InvT_measure (nb current) st1 hT1 hsub
  by_cases hcs : current = startP
  · rw [if_pos hcs]
    exact ⟨hT2, hm2⟩
  · rw [if_neg hcs]
    exact ⟨⟨hT2.gCells, hT2.gBound, hT2.openG, hT2.cfG, hT2.plZero⟩, hm2⟩

theorem stepExpand_InvR {nb : Pos → List Pos} {startP endP current : Pos}
    {st1 : St} (hR1 : InvR nb startP st1) (hcur : Reaches nb startP current) :
    InvR nb startP (stepExpand nb startP endP current st1) := by
  unfold stepExpand
  dsimp only
  have hR2 := @foldl_relaxOne_InvR nb startP endP current hcur (nb current) st1
    hR1 (fun q hq => hq)
  by_cases hcs : current = startP
  · rw [if_pos hcs]
    exact hR2
  · rw [if_neg hcs]
    exact ⟨hR2.openReach, hR2.gReach⟩

theorem stepExpand_InvB {colors0 : Pos → Rgb} {nb : Pos → List Pos}
    {startP endP current : Pos} {st1 : St}
    (hB1 : InvB colors0 st1) (hnb : ∀ q ∈ nb current, colors0 q ≠ Color.BARRIER)
    (hcur : colors0 current ≠ Color.BARRIER) :
    InvB colors0 (stepExpand nb startP endP current st1) := by
  unfold stepExpand
  dsimp only
  have hB2 := @foldl_relaxOne_InvB colors0 endP current (nb current) st1 hB1 hnb
  by_cases hcs : current = startP
  · rw [if_pos hcs]
    exact hB2
  · rw [if_neg hcs]
    refine ⟨?_, hB2.gNB, hB2.openG, hB2.cfNB⟩
    intro p
    show upd ((nb current).foldl (relaxOne endP current) st1).colors current
      Color.CLOSED p = Color.BARRIER ↔ colors0 p = Color.BARRIER
    by_cases hpc : p = current
    · rw [upd_eq hpc]
      exact ⟨fun h => absurd h (by decide), fun h => absurd h (hpc ▸ hcur)⟩
    · rw [upd_ne hpc]
      exact hB2.barEq p

/-! ## The main loop on an unreachable end: C2 -/

theorem loopGo_unreachable {N : Nat} {nb : Pos → List Pos} {startP endP : Pos}
    (hnbC : ∀ p, p ∈ cellsList N → ∀ q ∈ nb p, q ∈ cellsList N)
    (hur : ¬ Reaches nb startP endP) :
    ∀ (fuel : Nat) (st : St), InvT N st → InvR nb startP st →
      loopMeasure N st < fuel →
      (loopGo nb startP endP fuel st).1 = some (false, 0) := by
  intro fuel
  induction fuel with
  | zero =>
    intro st _ _ hm
    omega
  | succ fuel ih =>
    intro st hT hR hm
    cases hpop : popMin st.open_set with
    | none =>
      rw [loopGo_empty hpop, hT.plZero]
    | some pr =>
      obtain ⟨e, rest⟩ := pr
      have hreach_cur : Reaches nb startP e.2.2 := hR.openReach e (popMin_mem hpop)
      have hne : ¬ (e.2.2 = endP) := fun h => hur (h ▸ hreach_cur)
      rw [loopGo_pop_ne hpop hne]
      have hT1 := popped_InvT hpop hT
      have hR1 := popped_InvR hpop hR
      have hcells := popped_current_cells hpop hT
      obtain ⟨hT3, hm3⟩ := @stepExpand_InvT_measure N nb startP endP e.2.2 _
        hT1 (hnbC _ hcells)
      have hR3 := @stepExpand_InvR nb startP endP e.2.2 _ hR1 hreach_cur
      have hms := popped_measure (N := N) hpop
      exact ih _ hT3 hR3 (by omega)

theorem initSt_InvT {N : Nat} {colors0 : Pos → Rgb} {startP endP : Pos}
    (hs : startP ∈ cellsList N) : InvT N (initSt colors0 startP endP) := by
  have hgstart : (initSt colors0 startP endP).g_score startP = some 0 := by
    simp [initSt]
  constructor
  · intro p v hp
    by_cases hps : p = startP
    · subst hps; exact hs
    · rw [show (initSt colors0 startP endP).g_score p = none from by
        simp [initSt, hps]] at hp
      exact absurd hp (by simp)
  · intro p v hp
    by_cases hps : p = startP
    · rw [hps, hgstart] at hp
      obtain rfl : (0 : Nat) = v := Option.some.inj hp
      have hpos := countP_pos_of_mem
        (q := fun x => ((initSt colors0 startP endP).g_score x).isSome) hs
        (by simp only [hgstart]; rfl)
      unfold finCount
      omega
    · rw [show (initSt colors0 startP endP).g_score p = none from by
        simp [initSt, hps]] at hp
      exact absurd hp (by simp)
  · intro e he
    rw [show (initSt colors0 startP endP).open_set = [(0, 0, startP)] from rfl]
      at he
    rw [List.mem_singleton.mp he]
    rw [hgstart]
    rfl
  · intro p q hp
    exact absurd hp (by simp [initSt])
  · rfl

theorem initSt_InvR {nb : Pos → List Pos} {colors0 : Pos → Rgb}
    {startP endP : Pos} : InvR nb startP (initSt colors0 startP endP) := by
  constructor
  · intro e he
    rw [show (initSt colors0 startP endP).open_set = [(0, 0, startP)] from rfl]
      at he
    rw [List.mem_singleton.mp he]
    exact Reaches.refl
  · intro p v hp
    by_cases hps : p = startP
    · subst hps; exact Reaches.refl
    · rw [show (initSt colors0 startP endP).g_score p = none from by
        simp [initSt, hps]] at hp
      exact absurd hp (by simp)

theorem refreshed_cells_closed {N : Nat} {colors0 : Pos → Rgb} :
    ∀ p, p ∈ cellsList N → ∀ q ∈ refreshed_caches N colors0 p, q ∈ cellsList N := by
  intro p hp q hq
  obtain ⟨hp1, hp2⟩ := mem_cellsList.mp hp
  obtain ⟨h1, h2, _, _⟩ :=
    (mem_update_neighbors hp1 hp2).mp hq
  exact mem_cellsList.mpr ⟨h1, h2⟩

/-- C2: on any grid whose refreshed caches admit no route from start to end,
a sufficiently fueled search exhausts the frontier and returns exactly
`(False, 0)` — the returned count is the untouched `path_length` local. -/
theorem C2_no_path_returns_false_zero {N : Nat} {colors0 : Pos → Rgb}
    {startP endP : Pos} {fuel : Nat}
    (hs : startP ∈ cellsList N)
    (hur : ¬ Reaches (refreshed_caches N colors0) startP endP)
    (hfuel : loopMeasure N (initSt colors0 startP endP) < fuel) :
    (algorithm (refreshed_caches N colors0) colors0 startP endP fuel).1 =
      some (false, 0) :=
  loopGo_unreachable refreshed_cells_closed hur fuel _ (initSt_InvT hs)
    initSt_InvR hfuel

theorem reaches_eq_of_no_neighbors {nb : Pos → List Pos} {s : Pos}
    (h : nb s = []) : ∀ p, Reaches nb s p → p = s := by
  intro p hp
  induction hp with
  | refl => rfl
  | step hr hq ih =>
    subst ih
    rw [h] at hq
    exact absurd hq (by simp)

/-- Witness for C2 on the 3×3 grid whose start `(0,0)` is fully enclosed by
the barriers `(0,1)` and `(1,0)`. -/
theorem C2_no_path_returns_false_zero_witness :
    (algorithm (refreshed_caches 3 colorsEnc) colorsEnc (0,0) (2,2) 1000).1 =
      some (false, 0) :=
  C2_no_path_returns_false_zero (by decide)
    (fun h => by
      have h0 := reaches_eq_of_no_neighbors (by decide) _ h
      exact absurd h0 (by decide))
    (by decide)

/-! ## Termination: C10 -/

theorem rp_isSome {cf : Pos → Option Pos} {g : Pos → Option Nat}
    (hcf : ∀ p q, cf p = some q →
      ∃ vp vq, g p = some vp ∧ g q = some vq ∧ vq < vp) :
    ∀ (v : Nat) (cur : Pos), g cur = some v → ∀ (fuel : Nat), v < fuel →
      ∀ (colors : Pos → Rgb),
        ((reconstruct_path cf fuel colors cur).1).isSome = true := by
  intro v
  induction v using Nat.strong_induction_on with
  | _ v ih =>
    intro cur hg fuel hf colors
    cases fuel with
    | zero => omega
    | succ f =>
      rw [reconstruct_path]
      cases hc : cf cur with
      | none => simp
      | some p =>
        obtain ⟨vp, vq, hvp, hvq, hlt⟩ := hcf cur p hc
        rw [hg] at hvp
        obtain rfl : vp = v := (Option.some.inj hvp).symm
        have hrec := ih vq hlt p hvq f (by omega) (upd colors p Color.PATH)
        cases hrp : reconstruct_path cf f (upd colors p Color.PATH) p with
        | mk r cc =>
          cases r with
          | none =>
            rw [hrp] at hrec
            simp at hrec
          | some m =>
            dsimp only
            rw [hrp]
            rfl

theorem loopGo_total {N : Nat} {nb : Pos → List Pos} {startP endP : Pos}
    (hnbC : ∀ p, p ∈ cellsList N → ∀ q ∈ nb p, q ∈ cellsList N) :
    ∀ (fuel : Nat) (st : St), InvT N st →
      loopMeasure N st + (N * N + 2) ≤ fuel →
      ((loopGo nb startP endP fuel st).1).isSome = true := by
  intro fuel
  induction fuel with
  | zero =>
    intro st _ hm
    omega
  | succ fuel ih =>
    intro st hT hm
    cases hpop : popMin st.open_set with
    | none =>
      rw [loopGo_empty hpop]
      rfl
    | some pr =>
      obtain ⟨e, rest⟩ := pr
      by_cases he : e.2.2 = endP
      · have hsome := hT.openG e (popMin_mem hpop)
        obtain ⟨v, hv⟩ := Option.isSome_iff_exists.mp hsome
        rw [he] at hv
        have hvb := hT.gBound endP v hv
        have hfin_le : finCount N st.g_score ≤ N * N := by
          have h1 : finCount N st.g_score ≤ (cellsList N).length :=
            List.countP_le_length _
          rw [length_cellsList] at h1
          exact h1
        have hrp_some := rp_isSome hT.cfG v endP hv fuel (by omega) st.colors
        cases hrp : reconstruct_path st.came_from fuel st.colors endP with
        | mk r c2 =>
          cases r with
          | none =>
            rw [hrp] at hrp_some
            simp at hrp_some
          | some n =>
            rw [loopGo_pop_end_some hpop he hrp]
            rfl
      · rw [loopGo_pop_ne hpop he]
        have hT1 := popped_InvT hpop hT
        have hcells := popped_current_cells hpop hT
        obtain ⟨hT3, hm3⟩ := @stepExpand_InvT_measure N nb startP endP e.2.2 _
          hT1 (hnbC _ hcells)
        have hms := popped_measure (N := N) hpop
        exact ih _ hT3 (by omega)

/-- C10: the search terminates on every finite grid with refreshed caches —
each relaxation strictly lowers a capped `g_score` bounded below by zero and
each iteration pops an entry, so the measure `loopMeasure` strictly decreases
and any fuel beyond `loopMeasure + N*N + 2` is never exhausted (the extra
`N*N + 2` also covers the reconstruction walk, whose length is bounded by the
`g_score` of the end cell). -/
theorem C10_search_terminates {N : Nat} {colors0 : Pos → Rgb}
    {startP endP : Pos} {fuel : Nat} (hs : startP ∈ cellsList N)
    (hfuel : loopMeasure N (initSt colors0 startP endP) + (N * N + 2) ≤ fuel) :
    ((algorithm (refreshed_caches N colors0) colors0 startP endP fuel).1).isSome
      = true :=
  loopGo_total refreshed_cells_closed fuel _ (initSt_InvT hs) hfuel

/-- Witness for C10 on the empty 5×5 grid. -/
theorem C10_search_terminates_witness :
    ((algorithm (refreshed_caches 5 colors5) colors5 (0,0) (4,4) 15700).1).isSome
      = true :=
  C10_search_terminates (by decide) (by decide)

/-! ## Barrier frame: C9 -/

theorem update_neighbors_not_barrier {N : Nat} {isBar : Pos → Bool} {p q : Pos}
    (hq : q ∈ update_neighbors N isBar p) : isBar q = false := by
  unfold update_neighbors at hq
  rcases List.mem_append.mp hq with h | h
  rotate_left
  · rcases (mem_ite_singleton).mp h with ⟨hc, rfl⟩
    simp only [Bool.and_eq_true, Bool.not_eq_true'] at hc
    exact hc.2
  rcases List.mem_append.mp h with h' | h'
  rotate_left
  · rcases (mem_ite_singleton).mp h' with ⟨hc, rfl⟩
    simp only [Bool.and_eq_true, Bool.not_eq_true'] at hc
    exact hc.2
  rcases List.mem_append.mp h' with h'' | h''
  · rcases (mem_ite_singleton).mp h'' with ⟨hc, rfl⟩
    simp only [Bool.and_eq_true, Bool.not_eq_true'] at hc
    exact hc.2
  · rcases (mem_ite_singleton).mp h'' with ⟨hc, rfl⟩
    simp only [Bool.and_eq_true, Bool.not_eq_true'] at hc
    exact hc.2

theorem is_barrier_false_iff {colors : Pos → Rgb} {p : Pos} :
    is_barrier colors p = false ↔ colors p ≠ Color.BARRIER := by
  unfold is_barrier
  simp

theorem refreshed_not_barrier {N : Nat} {colors0 : Pos → Rgb} {p q : Pos}
    (hq : q ∈ refreshed_caches N colors0 p) : colors0 q ≠ Color.BARRIER :=
  is_barrier_false_iff.mp (update_neighbors_not_barrier hq)

theorem rp_colors_cases (cf : Pos → Option Pos) :
    ∀ (fuel : Nat) (colors : Pos → Rgb) (cur r : Pos),
      ((reconstruct_path cf fuel colors cur).2 r = colors r) ∨
      ((reconstruct_path cf fuel colors cur).2 r = Color.PATH ∧
        ∃ x, cf x = some r) := by
  intro fuel
  induction fuel with
  | zero =>
    intro colors cur r
    exact Or.inl rfl
  | succ f ih =>
    intro colors cur r
    rw [reconstruct_path]
    cases hc : cf cur with
    | none => exact Or.inl rfl
    | some p =>
      dsimp only
      have h2 : (match reconstruct_path cf f (upd colors p Color.PATH) p with
          | (some n, c2) => (some (n + 1), c2)
          | (none, c2) => ((none : Option Nat), c2)).2 =
          (reconstruct_path cf f (upd colors p Color.PATH) p).2 := by
        cases hrp : reconstruct_path cf f (upd colors p Color.PATH) p with
        | mk rr cc => cases rr <;> rfl
      rw [h2]
      rcases ih (upd colors p Color.PATH) p r with heq | hpath
      · rw [heq]
        by_cases hr : r = p
        · refine Or.inr ⟨?_, cur, hr ▸ hc⟩
          rw [upd_eq hr]
        · exact Or.inl (upd_ne hr)
      · exact Or.inr hpath

theorem loopGo_barrier {N : Nat} {colors0 : Pos → Rgb} {startP endP : Pos}
    (hsb : colors0 startP ≠ Color.BARRIER)
    (heb : colors0 endP ≠ Color.BARRIER) :
    ∀ (fuel : Nat) (st : St), InvB colors0 st → ∀ p,
      ((loopGo (refreshed_caches N colors0) startP endP fuel st).2.colors p =
        Color.BARRIER) ↔ (colors0 p = Color.BARRIER) := by
  intro fuel
  induction fuel with
  | zero =>
    intro st hB p
    exact hB.barEq p
  | succ fuel ih =>
    intro st hB p
    cases hpop : popMin st.open_set with
    | none =>
      rw [loopGo_empty hpop]
      exact hB.barEq p
    | some pr =>
      obtain ⟨e, rest⟩ := pr
      by_cases he : e.2.2 = endP
      · -- success or reconstruction fuel-out: colors come from reconstruct_path
        have hc2iff : ∀ c2 : Pos → Rgb,
            reconstruct_path st.came_from fuel st.colors endP =
              ((reconstruct_path st.came_from fuel st.colors endP).1, c2) →
            ((c2 p = Color.BARRIER) ↔ (colors0 p = Color.BARRIER)) := by
          intro c2 hc2
          have hsnd : (reconstruct_path st.came_from fuel st.colors endP).2 =
              c2 := by rw [hc2]
          rcases rp_colors_cases st.came_from fuel st.colors endP p with
            heq | ⟨hpath, x, hx⟩
          · rw [hsnd] at heq
            rw [heq]
            exact hB.barEq p
          · rw [hsnd] at hpath
            rw [hpath]
            constructor
            · intro hcon
              exact absurd hcon (by decide)
            · intro hcon
              exact absurd hcon ((hB.cfNB x p hx).2)
        cases hrp : reconstruct_path st.came_from fuel st.colors endP with
        | mk r c2 =>
          have hiff := hc2iff c2 (by rw [hrp])
          cases r with
          | none =>
            rw [loopGo_pop_end_none hpop he hrp]
            exact hiff
          | some n =>
            rw [loopGo_pop_end_some hpop he hrp]
            show (upd (upd c2 endP Color.END) startP Color.START p =
              Color.BARRIER) ↔ (colors0 p = Color.BARRIER)
            by_cases hps : p = startP
            · rw [upd_eq hps]
              exact ⟨fun h => absurd h (by decide),
                fun h => absurd h (hps ▸ hsb)⟩
            · rw [upd_ne hps]
              by_cases hpe : p = endP
              · rw [upd_eq hpe]
                exact ⟨fun h => absurd h (by decide),
                  fun h => absurd h (hpe ▸ heb)⟩
              · rw [upd_ne hpe]
                exact hiff
      · rw [loopGo_pop_ne hpop he]
        have hB1 := popped_InvB hpop hB
        have hcurNB : colors0 e.2.2 ≠ Color.BARRIER := by
          have hsome := hB.openG e (popMin_mem hpop)
          obtain ⟨v, hv⟩ := Option.isSome_iff_exists.mp hsome
          exact hB.gNB _ v hv
        have hB3 := @stepExpand_InvB colors0 (refreshed_caches N colors0)
          startP endP e.2.2 _ hB1
          (fun q hq => refreshed_not_barrier (N := N) hq) hcurNB
        exact ih _ hB3 p

theorem initSt_InvB {colors0 : Pos → Rgb} {startP endP : Pos}
    (hsb : colors0 startP ≠ Color.BARRIER) :
    InvB colors0 (initSt colors0 startP endP) := by
  constructor
  · intro p
    exact Iff.rfl
  · intro p v hp
    by_cases hps : p = startP
    · subst hps; exact hsb
    · rw [show (initSt colors0 startP endP).g_score p = none from by
        simp [initSt, hps]] at hp
      exact absurd hp (by simp)
  · intro e he
    rw [show (initSt colors0 startP endP).open_set = [(0, 0, startP)] from rfl]
      at he
    rw [List.mem_singleton.mp he]
    show ((initSt colors0 startP endP).g_score startP).isSome = true
    simp [initSt]
  · intro p q hp
    exact absurd hp (by simp [initSt])

/-- C9: with refreshed caches and a non-barrier start and end, a search never
changes the role of any barrier cell: the barrier layout observed through
`is_barrier` is identical before and after the call, whatever its outcome
(success, no-path, or fuel exhaustion). -/
theorem C9_barriers_preserved {N : Nat} {colors0 : Pos → Rgb}
    {startP endP : Pos} {fuel : Nat}
    (hsb : colors0 startP ≠ Color.BARRIER)
    (heb : colors0 endP ≠ Color.BARRIER) :
    ∀ p, is_barrier
        ((algorithm (refreshed_caches N colors0) colors0 startP endP fuel).2.colors)
        p = is_barrier colors0 p := by
  intro p
  have hiff := loopGo_barrier (N := N) hsb heb fuel
    (initSt colors0 startP endP) (initSt_InvB hsb) p
  unfold is_barrier
  by_cases h : colors0 p = Color.BARRIER
  · rw [h, beq_self_eq_true]
    have := hiff.mpr h
    simp [algorithm, this]
  · have h2 : ¬ ((algorithm (refreshed_caches N colors0) colors0 startP endP
        fuel).2.colors p = Color.BARRIER) := fun hcon => h (hiff.mp hcon)
    simp [h, h2]

/-- Witness for C9 on the enclosed-start 3×3 grid at the barrier cell
`(0,1)`. -/
theorem C9_barriers_preserved_witness :
    is_barrier
      ((algorithm (refreshed_caches 3 colorsEnc) colorsEnc (0,0) (2,2) 100).2.colors)
      (0,1) = is_barrier colorsEnc (0,1) :=
  C9_barriers_preserved (by decide) (by decide) (0,1)
